import Mathlib

/-!
Verification development for the adaptagrams constraint-based layout core, from
`src/cola/libcola/cluster.h` and `src/experimental/neatogen/quad_prog_vpsc.h`.
Coordinates are modelled as rationals.  Code that is only declared in the two
headers (the VPSC solving engine, the `computeBoundary` bodies, the
constrained-majorization driver) is modelled from the specification, as marked
on each definition.
-/

namespace Adaptagrams

/-- Modelled from the spec: the axis-aligned rectangle of `libvpsc/rectangle.h`
(not included in src/): independent min and max per axis, here over ℚ. -/
structure Rectangle where
  minX : ℚ
  maxX : ℚ
  minY : ℚ
  maxY : ℚ
deriving DecidableEq

/-- Modelled from the spec: the axis selector `vpsc::Dim` of libvpsc
(not included in src/). -/
inductive Dim where
  | XDIM
  | YDIM
deriving DecidableEq

/-- Modelled from the spec: accessor for a rectangle's minimum along an axis. -/
def Rectangle.getMinD (r : Rectangle) : Dim → ℚ
  | .XDIM => r.minX
  | .YDIM => r.minY

/-- Modelled from the spec: accessor for a rectangle's maximum along an axis. -/
def Rectangle.getMaxD (r : Rectangle) : Dim → ℚ
  | .XDIM => r.maxX
  | .YDIM => r.maxY

/-- Modelled from the spec: setter for a rectangle's minimum along an axis. -/
def Rectangle.setMinD (r : Rectangle) (d : Dim) (v : ℚ) : Rectangle :=
  match d with
  | .XDIM => { r with minX := v }
  | .YDIM => { r with minY := v }

/-- Modelled from the spec: setter for a rectangle's maximum along an axis. -/
def Rectangle.setMaxD (r : Rectangle) (d : Dim) (v : ℚ) : Rectangle :=
  match d with
  | .XDIM => { r with maxX := v }
  | .YDIM => { r with maxY := v }

/-- State of a `RectangularCluster` relevant to the inline edge-rectangle methods
of cluster.h: the computed `bounds`, the margin `m_margin`, and the two owned
caches of auxiliary edge rectangles (`minEdgeRect[2]`, `maxEdgeRect[2]`,
cluster.h lines 289-290), a null pointer modelled as `none`. -/
structure RectangularClusterState where
  bounds : Rectangle
  m_margin : ℚ
  minEdgeRect : Dim → Option Rectangle
  maxEdgeRect : Dim → Option Rectangle

/-- Embeds `RectangularCluster::getMinEdgeRect` (cluster.h lines 247-261): the
previous cached rectangle for `dim` is released, a copy of `bounds` is made, its
extent along `dim` is set to `[min - m_margin, min]`, the copy is stored in the
cache and returned. -/
def getMinEdgeRect (s : RectangularClusterState) (dim : Dim) :
    RectangularClusterState × Rectangle :=
  let r0 := s.bounds
  let edgePosition := r0.getMinD dim
  let r1 := (r0.setMinD dim (edgePosition - s.m_margin)).setMaxD dim edgePosition
  ({ s with minEdgeRect := fun d => if d = dim then some r1 else s.minEdgeRect d }, r1)

/-- Embeds `RectangularCluster::getMaxEdgeRect` (cluster.h lines 263-277): the
previous cached rectangle for `dim` is released, a copy of `bounds` is made, its
extent along `dim` is set to `[max, max + m_margin]`, the copy is stored in the
cache and returned. -/
def getMaxEdgeRect (s : RectangularClusterState) (dim : Dim) :
    RectangularClusterState × Rectangle :=
  let r0 := s.bounds
  let edgePosition := r0.getMaxD dim
  let r1 := (r0.setMaxD dim (edgePosition + s.m_margin)).setMinD dim edgePosition
  ({ s with maxEdgeRect := fun d => if d = dim then some r1 else s.maxEdgeRect d }, r1)

/-- Bound computed by `computeBoundary`: an axis-aligned box for rectangular
clusters, or the list of constituent hull points for convex clusters. -/
inductive Bound where
  | box (r : Rectangle)
  | hullPts (ps : List (ℚ × ℚ))
deriving DecidableEq

/-- Kind of a concrete cluster: a `RectangularCluster` carries its own margin and
padding fields (cluster.h lines 292-293); a `ConvexCluster` inherits the
base-class `margin()` and `padding()`, which return 0 (cluster.h lines 72-79). -/
inductive ClusterKind where
  | rectangular (m_margin m_padding : ℚ)
  | convex
deriving DecidableEq

/-- Cluster-hierarchy node (abstract base `Cluster` of cluster.h): member shape
indices (`nodes`, line 110), child clusters (`clusters`, line 111), and the
cached `bounds` field (line 100) written by `computeBoundary`, `none` before the
first computation. -/
inductive Cluster where
  | mk (kind : ClusterKind) (nodes : List Nat) (clusters : List Cluster)
      (bounds : Option Bound)

/-- Projection of the cluster kind. -/
def Cluster.kind : Cluster → ClusterKind
  | .mk k _ _ _ => k

/-- Projection of the member shape indices. -/
def Cluster.nodes : Cluster → List Nat
  | .mk _ ns _ _ => ns

/-- Projection of the child clusters. -/
def Cluster.clusters : Cluster → List Cluster
  | .mk _ _ cs _ => cs

/-- Projection of the cached bounds field. -/
def Cluster.bounds : Cluster → Option Bound
  | .mk _ _ _ b => b

/-- Mirrors the virtual `margin()` dispatch: `RectangularCluster::margin` returns
`m_margin` (cluster.h line 220), the base class used by `ConvexCluster` returns
0 (cluster.h lines 76-79). -/
def ClusterKind.margin : ClusterKind → ℚ
  | .rectangular m _ => m
  | .convex => 0

/-- Mirrors the virtual `padding()` dispatch: `RectangularCluster::padding`
returns `m_padding` (cluster.h line 236), the base class used by `ConvexCluster`
returns 0 (cluster.h lines 72-75). -/
def ClusterKind.padding : ClusterKind → ℚ
  | .rectangular _ p => p
  | .convex => 0

/-- State of `RootCluster` relevant to `flat`: the member node indices and child
clusters it inherits from `Cluster` (cluster.h lines 110-111) and its private
multiple-parents flag (cluster.h line 175). -/
structure RootCluster where
  nodes : List Nat
  clusters : List Cluster
  m_allows_multiple_parents : Bool

/-- Embeds `RootCluster::flat` (cluster.h lines 152-155): returns
`clusters.empty()`. -/
def RootCluster.flat (r : RootCluster) : Bool :=
  r.clusters.isEmpty

/-- Corner points of a rectangle. -/
def corners (r : Rectangle) : List (ℚ × ℚ) :=
  [(r.minX, r.minY), (r.maxX, r.minY), (r.minX, r.maxY), (r.maxX, r.maxY)]

/-- Smallest rectangle containing two rectangles. -/
def unionRect (a b : Rectangle) : Rectangle :=
  ⟨min a.minX b.minX, max a.maxX b.maxX, min a.minY b.minY, max a.maxY b.maxY⟩

/-- Rectangle expanded by `m` on every side. -/
def expandRect (m : ℚ) (r : Rectangle) : Rectangle :=
  ⟨r.minX - m, r.maxX + m, r.minY - m, r.maxY + m⟩

/-- Rectangle shrunk by `p` on every side. -/
def shrinkRect (p : ℚ) (r : Rectangle) : Rectangle :=
  ⟨r.minX + p, r.maxX - p, r.minY + p, r.maxY - p⟩

/-- Smallest rectangle covering a list of rectangles, `none` for the empty
list. -/
def coverList : List Rectangle → Option Rectangle
  | [] => none
  | r :: rest =>
    some
      (match coverList rest with
       | none => r
       | some a => unionRect r a)

/-- Degenerate rectangle at a single point. -/
def ptRect (p : ℚ × ℚ) : Rectangle :=
  ⟨p.1, p.1, p.2, p.2⟩

/-- Bounding rectangle of a bound, as used by `computeBoundingRect`: a box is
its own bounding rectangle; a hull is bounded by the cover of its points. -/
def boundRectOpt : Bound → Option Rectangle
  | .box r => some r
  | .hullPts ps => coverList (ps.map ptRect)

/-- Points representing a bound when it is nested inside a convex parent: the
corner points of a box, or the hull points themselves. -/
def boundPoints : Bound → List (ℚ × ℚ)
  | .box r => corners r
  | .hullPts ps => ps

/-- Rectangles a rectangular cluster's boundary has to cover: the member shape
rectangles and the bounding rectangles of the already-computed child bounds. -/
def contentRects (rs : Nat → Rectangle) (ns : List Nat)
    (children : List Cluster) : List Rectangle :=
  ns.map rs ++ children.filterMap (fun ch => (Cluster.bounds ch).bind boundRectOpt)

/-- Points a convex cluster's hull has to cover: the corner points of the member
shape rectangles and the points of the already-computed child bounds. -/
def hullContentPts (rs : Nat → Rectangle) (ns : List Nat)
    (children : List Cluster) : List (ℚ × ℚ) :=
  (ns.map rs).flatMap corners ++
    children.flatMap
      (fun ch =>
        match Cluster.bounds ch with
        | none => []
        | some b => boundPoints b)

mutual

/-- Modelled from the spec: `computeBoundary(rs)`, whose implementations
(`RootCluster`, `RectangularCluster` and `ConvexCluster::computeBoundary`,
cluster.h lines 149, 241, 303) are declared but not defined in src/.  Per the
spec it produces, for each cluster bottom-up, the minimal rectangle (or convex
hull, for hull-mode clusters) covering all direct members and all child
clusters' boundaries, expanded by the cluster's margin, writing it to the
cluster's cached bounds field.  An empty cluster gets no bounds. -/
def computeBoundary (rs : Nat → Rectangle) : Cluster → Cluster
  | .mk kind ns children _ =>
    let children' := computeBoundaryList rs children
    match kind with
    | .rectangular m p =>
      Cluster.mk (.rectangular m p) ns children'
        ((coverList (contentRects rs ns children')).map
          (fun cov => Bound.box (expandRect m cov)))
    | .convex =>
      Cluster.mk .convex ns children'
        (match hullContentPts rs ns children' with
         | [] => none
         | q :: qs => some (Bound.hullPts (q :: qs)))

/-- Bottom-up boundary computation over a list of sibling clusters. -/
def computeBoundaryList (rs : Nat → Rectangle) : List Cluster → List Cluster
  | [] => []
  | c :: cs => computeBoundary rs c :: computeBoundaryList rs cs

end

mutual

/-- Cluster with every cached bounds field (its own and its descendants') reset:
the part of a cluster that is not touched by `computeBoundary`. -/
def eraseBounds : Cluster → Cluster
  | .mk kind ns children _ => Cluster.mk kind ns (eraseBoundsList children) none

/-- Bounds erasure over a list of sibling clusters. -/
def eraseBoundsList : List Cluster → List Cluster
  | [] => []
  | c :: cs => eraseBounds c :: eraseBoundsList cs

end

/-- Point set of a rectangle. -/
def rectSet (r : Rectangle) : Set (ℚ × ℚ) :=
  Set.Icc r.minX r.maxX ×ˢ Set.Icc r.minY r.maxY

/-- Point set of a computed bound: the box itself, or the convex hull of the
stored hull points. -/
def inBoundSet : Bound → Set (ℚ × ℚ)
  | .box r => rectSet r
  | .hullPts ps => convexHull ℚ { p | p ∈ ps }

/-- Bound shrunk by a padding: boxes are shrunk on every side; hull bounds
belong to convex clusters, whose padding is 0, and are unchanged. -/
def shrinkBound (p : ℚ) : Bound → Bound
  | .box r => .box (shrinkRect p r)
  | .hullPts ps => .hullPts ps

/-- Coordinatewise containment of one rectangle in another. -/
def rectSubset (a b : Rectangle) : Prop :=
  b.minX ≤ a.minX ∧ a.maxX ≤ b.maxX ∧ b.minY ≤ a.minY ∧ a.maxY ≤ b.maxY

/-- Modelled from the spec: a 1-D positional variable of the VPSC engine (the
libvpsc `Variable` used by quad_prog_vpsc.h but not defined in src/): a desired
position and a weight. -/
structure Variable where
  desiredPosition : ℚ
  weight : ℚ
deriving DecidableEq

/-- Modelled from the spec: a separation constraint over one axis between two
variables, `position(right) ≥ position(left) + gap`, with an equality flag (the
libvpsc `Constraint` used by quad_prog_vpsc.h but not defined in src/). -/
structure Constraint where
  left : Nat
  right : Nat
  gap : ℚ
  equality : Bool
deriving DecidableEq

/-- Modelled from the spec: transient block structure of the VPSC solver during
the satisfy/merge procedure: each of the `nvars` variables belongs to a block
and has a fixed offset inside its block. -/
structure SolverState where
  nvars : Nat
  blk : Nat → Nat
  offset : Nat → ℚ

/-- Member variables of one block. -/
def blockVars (s : SolverState) (B : Nat) : Finset Nat :=
  (Finset.range s.nvars).filter (fun i => s.blk i = B)

/-- Modelled from the spec: a merged block's position is the weighted average of
its constituents' desired positions corrected by their offsets. -/
def blockPosn (vars : Nat → Variable) (s : SolverState) (B : Nat) : ℚ :=
  (∑ i ∈ blockVars s B, (vars i).weight *
      ((vars i).desiredPosition - s.offset i)) /
    ∑ i ∈ blockVars s B, (vars i).weight

/-- Current position of a variable: its block's position plus its offset. -/
def varPosn (vars : Nat → Variable) (s : SolverState) (i : Nat) : ℚ :=
  blockPosn vars s (s.blk i) + s.offset i

/-- Violation of a separation constraint at the current positions: positive
when the constraint is violated. -/
def violation (vars : Nat → Variable) (s : SolverState) (c : Constraint) : ℚ :=
  varPosn vars s c.left + c.gap - varPosn vars s c.right

/-- Modelled from the spec: scan for the most-violated constraint whose
endpoints lie in different blocks, breaking ties between equally-violated
constraints by stable index order (the spec's determinism requirement): a later
candidate replaces the current best only when strictly more violated. -/
def mvStep (vars : Nat → Variable) (s : SolverState) (k : Nat) (c : Constraint)
    (best : Option (Nat × Constraint)) : Option (Nat × Constraint) :=
  if s.blk c.left ≠ s.blk c.right ∧ 0 < violation vars s c then
    match best with
    | none => some (k, c)
    | some (k0, c0) =>
      if violation vars s c0 < violation vars s c then some (k, c)
      else some (k0, c0)
  else best

/-- Scan loop for the most-violated constraint over the remaining constraint
list, carrying the running index and best candidate. -/
def mvGo (vars : Nat → Variable) (s : SolverState) :
    List Constraint → Nat → Option (Nat × Constraint) → Option (Nat × Constraint)
  | [], _, best => best
  | c :: rest, k, best => mvGo vars s rest (k + 1) (mvStep vars s k c best)

/-- Modelled from the spec: the most-violated mergeable constraint, if any
constraint is violated. -/
def mostViolated (vars : Nat → Variable) (s : SolverState)
    (cs : List Constraint) : Option (Nat × Constraint) :=
  mvGo vars s cs 0 none

/-- Modelled from the spec: merge the two blocks joined by a violated
constraint: the right block's members are shifted so the constraint becomes
active (holds with equality between the offsets) and are relabelled into the
left block; the combined position is then the weighted average of all
constituents via `blockPosn`. -/
def mergeBlocks (s : SolverState) (c : Constraint) : SolverState :=
  let L := s.blk c.left
  let R := s.blk c.right
  let d := s.offset c.left + c.gap - s.offset c.right
  { nvars := s.nvars
    blk := fun j => if s.blk j = R then L else s.blk j
    offset := fun j => if s.blk j = R then s.offset j + d else s.offset j }

/-- Modelled from the spec: the merge steps of the satisfy procedure:
repeatedly find the most-violated constraint joining two distinct blocks and
merge them; `fuel` bounds the number of merges.  The spec's further branch for
a violated constraint internal to one block ("split appropriately or continue
resolving transitively") is not modelled here: the spec does not determine the
split rule, and this loop serves only as the substrate for the determinism and
failure-reporting developments, not as the complete satisfy procedure. -/
def satisfyLoop (vars : Nat → Variable) (cs : List Constraint) :
    Nat → SolverState → SolverState
  | 0, s => s
  | fuel + 1, s =>
    match mostViolated vars s cs with
    | none => s
    | some (_, c) => satisfyLoop vars cs fuel (mergeBlocks s c)

/-- Modelled from the spec: initial solver state: each variable is its own
singleton block positioned at its own desired position (offset 0). -/
def initState (n : Nat) : SolverState :=
  ⟨n, fun i => i, fun _ => 0⟩

/-- Modelled from the spec: the merge phase of the VPSC satisfy procedure over
`n` variables, run from singleton blocks with fuel `n` (each merge joins two
distinct blocks, so no run performs more than `n` merges). -/
def satisfyVPSC (vars : Nat → Variable) (n : Nat)
    (cs : List Constraint) : SolverState :=
  satisfyLoop vars cs n (initState n)

/-- Modelled from the spec: terminal states of the constrained-majorization
driver (`constrained_majorization_vpsc` is declared in quad_prog_vpsc.h line 45
but its implementation is not in src/): convergence and the iteration cap are
terminal non-error states, infeasibility is the distinct failure state. -/
inductive DriverStatus where
  | CONVERGED
  | STOPPED
  | FAILED
deriving DecidableEq

/-- Result of a driver run: terminal status, the coordinate array as written
back, and the number of solver invocations performed. -/
structure DriverResult where
  status : DriverStatus
  positions : List ℚ
  solves : Nat
deriving DecidableEq

/-- Modelled from the spec: the outer iteration loop of
`constrained_majorization_vpsc`: each iteration invokes the solve step in place
over the coordinate array; on solver failure the run ends immediately with
`FAILED` and the step is not retried; when the stress improvement falls below
the tolerance the run ends `CONVERGED`; when the iteration cap is exhausted the
run ends `STOPPED` with the positions found so far. -/
def driverLoop (step : List ℚ → Except Unit (List ℚ)) (stress : List ℚ → ℚ)
    (tol : ℚ) : Nat → List ℚ → Nat → DriverResult
  | 0, x, k => ⟨.STOPPED, x, k⟩
  | fuel + 1, x, k =>
    match step x with
    | .error _ => ⟨.FAILED, x, k + 1⟩
    | .ok x2 =>
      if stress x - stress x2 < tol then ⟨.CONVERGED, x2, k + 1⟩
      else driverLoop step stress tol fuel x2 (k + 1)

/-- Modelled from the spec: one ITERATE super-step for one axis: the desired
positions are derived from the gradient of a majorizing surrogate `g` of the
true stress at the current positions, and the separation solver returns the
feasible point minimizing the surrogate (its weighted least-squares
projection); `argmin` stands for that solve. -/
def majorizationStep (argmin : (List ℚ → ℚ) → List ℚ)
    (g : List ℚ → List ℚ → ℚ) (x : List ℚ) : List ℚ :=
  argmin (fun y => g y x)

/-- Iterates of the majorization driver from an initial coordinate array. -/
def majorizationIter (argmin : (List ℚ → ℚ) → List ℚ)
    (g : List ℚ → List ℚ → ℚ) (x0 : List ℚ) : Nat → List ℚ
  | 0 => x0
  | k + 1 => majorizationStep argmin g (majorizationIter argmin g x0 k)

/-- Assignment satisfying every separation constraint of a set. -/
def satisfiesAll (x : Nat → ℚ) (cs : List Constraint) : Prop :=
  ∀ c ∈ cs, x c.left + c.gap ≤ x c.right

/-- Cycle of strict inequalities inside a constraint set: a nonempty chain of
constraints of `cs` with positive gaps, each one's right variable being the
next one's left variable, closing back on itself. -/
def IsStrictCycle (cs : List Constraint) (cyc : List Constraint) : Prop :=
  cyc ≠ [] ∧ (∀ c ∈ cyc, c ∈ cs) ∧ (∀ c ∈ cyc, 0 < c.gap) ∧
  List.Chain' (fun c c2 => c.right = c2.left) cyc ∧
  cyc.getLast?.map Constraint.right = cyc.head?.map Constraint.left

/-- One parallel longest-path relaxation round over the potentials. -/
def relaxRound (cs : List Constraint) (pot : List ℚ) : List ℚ :=
  (List.range pot.length).map
    (fun i =>
      cs.foldl
        (fun acc c =>
          if c.right = i then max acc (pot.getD c.left 0 + c.gap) else acc)
        (pot.getD i 0))

/-- Iterated relaxation rounds. -/
def iterRounds (cs : List Constraint) : Nat → List ℚ → List ℚ
  | 0, pot => pot
  | k + 1, pot => iterRounds cs k (relaxRound cs pot)

/-- Modelled from the spec: detection of an infeasible (cyclic) constraint set
over `n` variables, by checking whether longest-path relaxation still makes
progress after `n` rounds. -/
def detectInfeasible (n : Nat) (cs : List Constraint) : Bool :=
  decide (relaxRound cs (iterRounds cs n (List.replicate n 0)) ≠
    iterRounds cs n (List.replicate n 0))

/-- Modelled from the spec: the checked separation-constraint solve as invoked
by the driver: an infeasible constraint set is reported as the distinct failure
status instead of an approximated assignment being returned as success. -/
def solveVPSCChecked (vars : Nat → Variable) (n : Nat)
    (cs : List Constraint) : Except DriverStatus SolverState :=
  if detectInfeasible n cs then Except.error DriverStatus.FAILED
  else Except.ok (satisfyVPSC vars n cs)

/-- Modelled from the spec: the per-iteration solve step of the driver over the
coordinate array: on success the block-projected positions are written back. -/
def vpscStep (vars : Nat → Variable) (n : Nat) (cs : List Constraint)
    (_x : List ℚ) : Except Unit (List ℚ) :=
  match solveVPSCChecked vars n cs with
  | .error _ => .error ()
  | .ok s => .ok ((List.range n).map (fun i => varPosn vars s i))

/-- Containment property of C6 exactly as the claim states it, for one cluster:
after `computeBoundary`, every member shape's rectangle lies within the computed
bound, and every child cluster's bound lies within the parent's bound shrunk by
the parent's padding. -/
def containmentAsStated (rs : Nat → Rectangle) (c : Cluster) : Prop :=
  ∀ b, (computeBoundary rs c).bounds = some b →
    (∀ i ∈ c.nodes, rectSet (rs i) ⊆ inBoundSet b) ∧
    (∀ ch ∈ (computeBoundary rs c).clusters, ∀ bc, ch.bounds = some bc →
      inBoundSet bc ⊆ inBoundSet (shrinkBound c.kind.padding b))

end Adaptagrams

namespace Adaptagrams

/-- C10: for every `RootCluster`, `flat()` returns true if and only if its list of
child clusters is empty, and its value is unaffected by the shape indices the
root holds directly. -/
theorem RootCluster.flat_iff_clusters_empty (r : RootCluster) :
    (r.flat = true ↔ r.clusters = []) ∧
    (∀ ns : List Nat, RootCluster.flat { r with nodes := ns } = r.flat) := by
  refine ⟨?_, fun ns => rfl⟩
  simp [RootCluster.flat, List.isEmpty_iff]

/-- C8: `getMinEdgeRect dim` returns a rectangle spanning exactly
`[bounds min - margin, bounds min]` along `dim`, and `getMaxEdgeRect dim` one
spanning exactly `[bounds max, bounds max + margin]`; each call replaces the
cached auxiliary rectangle for that edge and axis with the returned rectangle,
leaving the other cache entries and the bounds unchanged. -/
theorem edgeRect_spec (s : RectangularClusterState) (dim : Dim) :
    ((getMinEdgeRect s dim).2.getMinD dim = s.bounds.getMinD dim - s.m_margin ∧
     (getMinEdgeRect s dim).2.getMaxD dim = s.bounds.getMinD dim ∧
     (getMinEdgeRect s dim).1.minEdgeRect dim = some (getMinEdgeRect s dim).2 ∧
     (∀ d, d ≠ dim → (getMinEdgeRect s dim).1.minEdgeRect d = s.minEdgeRect d) ∧
     (getMinEdgeRect s dim).1.maxEdgeRect = s.maxEdgeRect ∧
     (getMinEdgeRect s dim).1.bounds = s.bounds) ∧
    ((getMaxEdgeRect s dim).2.getMinD dim = s.bounds.getMaxD dim ∧
     (getMaxEdgeRect s dim).2.getMaxD dim = s.bounds.getMaxD dim + s.m_margin ∧
     (getMaxEdgeRect s dim).1.maxEdgeRect dim = some (getMaxEdgeRect s dim).2 ∧
     (∀ d, d ≠ dim → (getMaxEdgeRect s dim).1.maxEdgeRect d = s.maxEdgeRect d) ∧
     (getMaxEdgeRect s dim).1.minEdgeRect = s.minEdgeRect ∧
     (getMaxEdgeRect s dim).1.bounds = s.bounds) := by
  cases dim <;>
    refine ⟨⟨rfl, rfl, by simp [getMinEdgeRect], fun d hd => ?_, rfl, rfl⟩,
      ⟨rfl, rfl, by simp [getMaxEdgeRect], fun d hd => ?_, rfl, rfl⟩⟩ <;>
    cases d <;> simp_all [getMinEdgeRect, getMaxEdgeRect]

/-- Witness for C8: the edge-rectangle theorem evaluated at concrete state with
bounds `[0,2] x [0,3]` and margin 1, along the x axis. -/
theorem edgeRect_spec_witness :
    ((getMinEdgeRect ⟨⟨0, 2, 0, 3⟩, 1, fun _ => none, fun _ => none⟩
        Dim.XDIM).2.getMinD Dim.XDIM = (0 : ℚ) - 1 ∧
     (getMinEdgeRect ⟨⟨0, 2, 0, 3⟩, 1, fun _ => none, fun _ => none⟩
        Dim.XDIM).2.getMaxD Dim.XDIM = (0 : ℚ)) := by
  have h := edgeRect_spec ⟨⟨0, 2, 0, 3⟩, 1, fun _ => none, fun _ => none⟩ Dim.XDIM
  exact ⟨h.1.1, h.1.2.1⟩

/-- Induction principle for the nested cluster tree. -/
theorem Cluster.induction_on (P : Cluster → Prop)
    (h : ∀ k ns cs b, (∀ c ∈ cs, P c) → P (Cluster.mk k ns cs b)) :
    ∀ c, P c
  | .mk k ns cs b => h k ns cs b (fun c hc =>
      have : sizeOf c < sizeOf (Cluster.mk k ns cs b) := by
        have := List.sizeOf_lt_of_mem hc
        simp only [Cluster.mk.sizeOf_spec]
        omega
      Cluster.induction_on P h c)

/-- Containment of rectangles is reflexive. -/
theorem rectSubset_refl (r : Rectangle) : rectSubset r r :=
  ⟨le_refl _, le_refl _, le_refl _, le_refl _⟩

/-- Containment of rectangles is transitive. -/
theorem rectSubset_trans {a b c : Rectangle} (h1 : rectSubset a b)
    (h2 : rectSubset b c) : rectSubset a c :=
  ⟨le_trans h2.1 h1.1, le_trans h1.2.1 h2.2.1, le_trans h2.2.2.1 h1.2.2.1,
    le_trans h1.2.2.2 h2.2.2.2⟩

/-- Both arguments are contained in their union. -/
theorem rectSubset_unionRect_left (a b : Rectangle) : rectSubset a (unionRect a b) :=
  ⟨min_le_left _ _, le_max_left _ _, min_le_left _ _, le_max_left _ _⟩

/-- Both arguments are contained in their union. -/
theorem rectSubset_unionRect_right (a b : Rectangle) : rectSubset b (unionRect a b) :=
  ⟨min_le_right _ _, le_max_right _ _, min_le_right _ _, le_max_right _ _⟩

/-- Union of rectangles is the least rectangle above both. -/
theorem unionRect_subset {a b R : Rectangle} (h1 : rectSubset a R)
    (h2 : rectSubset b R) : rectSubset (unionRect a b) R :=
  ⟨le_min h1.1 h2.1, max_le h1.2.1 h2.2.1, le_min h1.2.2.1 h2.2.2.1,
    max_le h1.2.2.2 h2.2.2.2⟩

/-- Cover of a list is `none` exactly for the empty list. -/
theorem coverList_eq_none {l : List Rectangle} : coverList l = none ↔ l = [] := by
  cases l <;> simp [coverList]

/-- Cover of a list of rectangles contains every element of the list. -/
theorem coverList_covers {l : List Rectangle} {cov : Rectangle}
    (h : coverList l = some cov) : ∀ r ∈ l, rectSubset r cov := by
  induction l generalizing cov with
  | nil => intro r hr; cases hr
  | cons a l ih =>
    intro r hr
    rw [coverList] at h
    rw [List.mem_cons] at hr
    rcases hl : coverList l with _ | covl
    · have : l = [] := coverList_eq_none.mp hl
      subst this
      rw [hl] at h
      simp only [Option.some.injEq] at h
      subst h
      rcases hr with rfl | hr'
      · exact rectSubset_refl _
      · simp at hr'
    · rw [hl] at h
      simp only [Option.some.injEq] at h
      subst h
      rcases hr with rfl | hr'
      · exact rectSubset_unionRect_left _ _
      · exact rectSubset_trans (ih hl r hr')
          (rectSubset_unionRect_right _ _)

/-- Cover of a list of rectangles is the least rectangle covering them all. -/
theorem coverList_least {l : List Rectangle} {cov R : Rectangle}
    (h : coverList l = some cov) (hR : ∀ r ∈ l, rectSubset r R) :
    rectSubset cov R := by
  induction l generalizing cov with
  | nil => cases h
  | cons a l ih =>
    rw [coverList] at h
    rcases hl : coverList l with _ | covl
    · rw [hl] at h
      simp only [Option.some.injEq] at h
      subst h
      exact hR a (List.mem_cons_self a l)
    · rw [hl] at h
      simp only [Option.some.injEq] at h
      subst h
      exact unionRect_subset (hR a (List.mem_cons_self a l))
        (ih hl (fun r hr => hR r (List.mem_cons_of_mem _ hr)))

/-- Coordinatewise containment implies containment of point sets. -/
theorem rectSet_mono {a b : Rectangle} (h : rectSubset a b) :
    rectSet a ⊆ rectSet b := by
  rintro ⟨x, y⟩ ⟨⟨hx1, hx2⟩, hy1, hy2⟩
  exact ⟨⟨le_trans h.1 hx1, le_trans hx2 h.2.1⟩,
    ⟨le_trans h.2.2.1 hy1, le_trans hy2 h.2.2.2⟩⟩

/-- Every rectangle point set is convex. -/
theorem convex_rectSet (r : Rectangle) : Convex ℚ (rectSet r) :=
  (convex_Icc _ _).prod (convex_Icc _ _)

/-- Single point lies in its degenerate rectangle. -/
theorem mem_rectSet_ptRect (p : ℚ × ℚ) : p ∈ rectSet (ptRect p) :=
  ⟨⟨le_refl _, le_refl _⟩, ⟨le_refl _, le_refl _⟩⟩

/-- Corner set of a rectangle is the product of its coordinate pairs. -/
theorem corners_set_eq (r : Rectangle) :
    { p | p ∈ corners r } =
      ({r.minX, r.maxX} : Set ℚ) ×ˢ ({r.minY, r.maxY} : Set ℚ) := by
  ext ⟨x, y⟩
  simp [corners, Set.mem_prod, Prod.ext_iff]
  tauto

/-- Rectangle point set lies inside the convex hull of its corner points. -/
theorem rectSet_subset_hull_corners (r : Rectangle) :
    rectSet r ⊆ convexHull ℚ { p | p ∈ corners r } := by
  rintro ⟨x, y⟩ ⟨⟨hx1, hx2⟩, hy1, hy2⟩
  have hX : r.minX ≤ r.maxX := le_trans hx1 hx2
  have hY : r.minY ≤ r.maxY := le_trans hy1 hy2
  rw [corners_set_eq, convexHull_prod, convexHull_pair, convexHull_pair,
    segment_eq_Icc hX, segment_eq_Icc hY]
  exact ⟨⟨hx1, hx2⟩, ⟨hy1, hy2⟩⟩

/-- Point set of a bound is contained in the point set of its bounding
rectangle. -/
theorem inBoundSet_subset_boundRect {b : Bound} {br : Rectangle}
    (h : boundRectOpt b = some br) : inBoundSet b ⊆ rectSet br := by
  cases b with
  | box r =>
    simp only [boundRectOpt, Option.some.injEq] at h
    subst h
    exact subset_refl _
  | hullPts ps =>
    simp only [boundRectOpt] at h
    refine convexHull_min ?_ (convex_rectSet br)
    intro p hp
    have hp' : p ∈ ps := hp
    have hmem : ptRect p ∈ ps.map ptRect := List.mem_map_of_mem ptRect hp'
    exact rectSet_mono (coverList_covers h _ hmem) (mem_rectSet_ptRect p)

/-- Bound with no bounding rectangle has an empty point set. -/
theorem inBoundSet_empty_of_boundRect_none {b : Bound}
    (h : boundRectOpt b = none) : inBoundSet b = ∅ := by
  cases b with
  | box r => cases h
  | hullPts ps =>
    simp only [boundRectOpt, coverList_eq_none, List.map_eq_nil_iff] at h
    subst h
    simp [inBoundSet, convexHull_empty]

/-- Boundary computation over a list is elementwise. -/
theorem computeBoundaryList_eq_map (rs : Nat → Rectangle) :
    ∀ cs : List Cluster, computeBoundaryList rs cs = cs.map (computeBoundary rs)
  | [] => rfl
  | c :: cs => by
    rw [computeBoundaryList, computeBoundaryList_eq_map rs cs, List.map_cons]

/-- Bounds erasure over a list is elementwise. -/
theorem eraseBoundsList_eq_map :
    ∀ cs : List Cluster, eraseBoundsList cs = cs.map eraseBounds
  | [] => rfl
  | c :: cs => by
    rw [eraseBoundsList, eraseBoundsList_eq_map cs, List.map_cons]

/-- Helper for the C7 frame property, lifted to sibling lists. -/
theorem eraseBoundsList_computeBoundaryList (rs : Nat → Rectangle)
    (cs : List Cluster)
    (ih : ∀ c ∈ cs, eraseBounds (computeBoundary rs c) = eraseBounds c) :
    eraseBoundsList (computeBoundaryList rs cs) = eraseBoundsList cs := by
  induction cs with
  | nil => rfl
  | cons c cs ihl =>
    rw [computeBoundaryList, eraseBoundsList, eraseBoundsList,
      ih c (List.mem_cons_self c cs),
      ihl (fun c hc => ih c (List.mem_cons_of_mem _ hc))]

/-- Frame property of `computeBoundary`: everything except the cached bounds
fields is left unchanged. -/
theorem eraseBounds_computeBoundary (rs : Nat → Rectangle) (c : Cluster) :
    eraseBounds (computeBoundary rs c) = eraseBounds c := by
  refine Cluster.induction_on
    (fun c => eraseBounds (computeBoundary rs c) = eraseBounds c) ?_ c
  intro k ns cs b ih
  cases k <;>
    simp only [computeBoundary, eraseBounds, Cluster.mk.injEq, true_and,
      and_true] <;>
    exact eraseBoundsList_computeBoundaryList rs cs ih

/-- Helper: boundary computation only reads the bounds-erased part, lifted to
sibling lists. -/
theorem computeBoundaryList_congr (rs : Nat → Rectangle) :
    ∀ cs₁ cs₂ : List Cluster,
      (∀ c ∈ cs₁, ∀ c₂, eraseBounds c = eraseBounds c₂ →
        computeBoundary rs c = computeBoundary rs c₂) →
      eraseBoundsList cs₁ = eraseBoundsList cs₂ →
      computeBoundaryList rs cs₁ = computeBoundaryList rs cs₂ := by
  intro cs₁
  induction cs₁ with
  | nil =>
    intro cs₂ _ heq
    cases cs₂ with
    | nil => rfl
    | cons c cs => cases heq
  | cons c cs ih =>
    intro cs₂ hmem heq
    cases cs₂ with
    | nil => cases heq
    | cons c₂ cs₂ =>
      rw [eraseBoundsList, eraseBoundsList, List.cons.injEq] at heq
      rw [computeBoundaryList, computeBoundaryList,
        hmem c (List.mem_cons_self c cs) c₂ heq.1,
        ih cs₂ (fun x hx => hmem x (List.mem_cons_of_mem _ hx)) heq.2]

/-- Boundary computation only reads the bounds-erased part of a cluster. -/
theorem computeBoundary_congr (rs : Nat → Rectangle) :
    ∀ c₁ c₂ : Cluster, eraseBounds c₁ = eraseBounds c₂ →
      computeBoundary rs c₁ = computeBoundary rs c₂ := by
  intro c₁
  refine Cluster.induction_on
    (fun c₁ => ∀ c₂, eraseBounds c₁ = eraseBounds c₂ →
      computeBoundary rs c₁ = computeBoundary rs c₂) ?_ c₁
  intro k ns cs b ih c₂ heq
  cases c₂ with
  | mk k₂ ns₂ cs₂ b₂ =>
    rw [eraseBounds, eraseBounds, Cluster.mk.injEq] at heq
    obtain ⟨rfl, rfl, hcs, -⟩ := heq
    have hlist : computeBoundaryList rs cs = computeBoundaryList rs cs₂ :=
      computeBoundaryList_congr rs cs cs₂ ih hcs
    cases k <;> simp only [computeBoundary, hlist]

/-- C7: `computeBoundary` is idempotent for unchanged rectangle input — the
second of two successive calls changes nothing — and it has no effect on a
cluster other than updating the cached bounds fields. -/
theorem computeBoundary_idem_frame (rs : Nat → Rectangle) (c : Cluster) :
    computeBoundary rs (computeBoundary rs c) = computeBoundary rs c ∧
    eraseBounds (computeBoundary rs c) = eraseBounds c :=
  ⟨computeBoundary_congr rs _ _ (eraseBounds_computeBoundary rs c),
    eraseBounds_computeBoundary rs c⟩

/-- Expansion by a nonnegative margin contains the original rectangle. -/
theorem rectSubset_expandRect {m : ℚ} (r : Rectangle) (hm : 0 ≤ m) :
    rectSubset r (expandRect m r) := by
  refine ⟨?_, ?_, ?_, ?_⟩ <;> simp [expandRect] <;> linarith

/-- Shrinking an expanded rectangle expands by the difference. -/
theorem shrinkRect_expandRect (p m : ℚ) (r : Rectangle) :
    shrinkRect p (expandRect m r) = expandRect (m - p) r := by
  simp only [shrinkRect, expandRect, Rectangle.mk.injEq]
  refine ⟨by ring, by ring, by ring, by ring⟩

/-- Member rectangles belong to the content list of a rectangular cluster. -/
theorem mem_contentRects_of_node {rs : Nat → Rectangle} {ns : List Nat}
    {children : List Cluster} {i : Nat} (hi : i ∈ ns) :
    rs i ∈ contentRects rs ns children :=
  List.mem_append_left _ (List.mem_map_of_mem rs hi)

/-- Bounding rectangles of child bounds belong to the content list. -/
theorem mem_contentRects_of_child {rs : Nat → Rectangle} {ns : List Nat}
    {children : List Cluster} {ch : Cluster} {bc : Bound} {br : Rectangle}
    (hch : ch ∈ children) (hbc : Cluster.bounds ch = some bc)
    (hbr : boundRectOpt bc = some br) :
    br ∈ contentRects rs ns children := by
  refine List.mem_append_right _ (List.mem_filterMap.mpr ⟨ch, hch, ?_⟩)
  rw [hbc]
  exact hbr

/-- Corners of member rectangles belong to the hull content points. -/
theorem mem_hullContentPts_of_node {rs : Nat → Rectangle} {ns : List Nat}
    {children : List Cluster} {i : Nat} {q : ℚ × ℚ} (hi : i ∈ ns)
    (hq : q ∈ corners (rs i)) : q ∈ hullContentPts rs ns children :=
  List.mem_append_left _
    (List.mem_flatMap.mpr ⟨rs i, List.mem_map_of_mem rs hi, hq⟩)

/-- Points of child bounds belong to the hull content points. -/
theorem mem_hullContentPts_of_child {rs : Nat → Rectangle} {ns : List Nat}
    {children : List Cluster} {ch : Cluster} {bc : Bound} {q : ℚ × ℚ}
    (hch : ch ∈ children) (hbc : Cluster.bounds ch = some bc)
    (hq : q ∈ boundPoints bc) : q ∈ hullContentPts rs ns children := by
  refine List.mem_append_right _ (List.mem_flatMap.mpr ⟨ch, hch, ?_⟩)
  simp only [hbc]
  exact hq

/-- Bound's point set is inside the hull of any point list containing its
representative points. -/
theorem inBoundSet_subset_hull {bc : Bound} {P : List (ℚ × ℚ)}
    (hsub : ∀ q ∈ boundPoints bc, q ∈ P) :
    inBoundSet bc ⊆ convexHull ℚ { p | p ∈ P } := by
  cases bc with
  | box r =>
    exact (rectSet_subset_hull_corners r).trans
      (convexHull_mono (fun q hq => hsub q hq))
  | hullPts ps => exact convexHull_mono (fun q hq => hsub q hq)

/-- C6 (amended): after `computeBoundary`, every member shape's rectangle lies
within the cluster's computed bound; every child cluster's bound lies within the
parent's bound, and within the parent's bound shrunk by the parent's padding
whenever the padding does not exceed the margin; and the computed bound is the
minimal covering rectangle expanded by the margin (rectangular clusters),
respectively the convex hull of the member and child boundary points — the
least convex set containing them (hull-mode clusters).  Margins are assumed
nonnegative. -/
theorem computeBoundary_containment (rs : Nat → Rectangle) (c : Cluster)
    (hm : 0 ≤ c.kind.margin) :
    ∀ b, (computeBoundary rs c).bounds = some b →
      (∀ i ∈ c.nodes, rectSet (rs i) ⊆ inBoundSet b) ∧
      (∀ ch ∈ (computeBoundary rs c).clusters, ∀ bc, ch.bounds = some bc →
        inBoundSet bc ⊆ inBoundSet b) ∧
      (c.kind.padding ≤ c.kind.margin →
        ∀ ch ∈ (computeBoundary rs c).clusters, ∀ bc, ch.bounds = some bc →
          inBoundSet bc ⊆ inBoundSet (shrinkBound c.kind.padding b)) ∧
      (∀ m p, c.kind = .rectangular m p →
        ∃ cov,
          coverList (contentRects rs c.nodes (computeBoundary rs c).clusters) =
            some cov ∧
          (∀ r ∈ contentRects rs c.nodes (computeBoundary rs c).clusters,
            rectSubset r cov) ∧
          (∀ R, (∀ r ∈ contentRects rs c.nodes (computeBoundary rs c).clusters,
            rectSubset r R) → rectSubset cov R) ∧
          b = .box (expandRect m cov)) ∧
      (c.kind = .convex →
        inBoundSet b =
          convexHull ℚ
            { q | q ∈ hullContentPts rs c.nodes (computeBoundary rs c).clusters } ∧
        ∀ S : Set (ℚ × ℚ), Convex ℚ S →
          (∀ q ∈ hullContentPts rs c.nodes (computeBoundary rs c).clusters,
            q ∈ S) →
          inBoundSet b ⊆ S) := by
  intro b hb
  obtain ⟨k, ns, cs, b0⟩ := c
  cases k with
  | rectangular m p =>
    simp only [computeBoundary, Cluster.bounds, Cluster.clusters, Cluster.nodes,
      Cluster.kind, ClusterKind.margin, ClusterKind.padding] at hb hm ⊢
    rw [Option.map_eq_some'] at hb
    obtain ⟨cov, hcov, rfl⟩ := hb
    refine ⟨?_, ?_, ?_, ?_, ?_⟩
    · intro i hi
      simp only [inBoundSet]
      exact rectSet_mono
        (rectSubset_trans (coverList_covers hcov _ (mem_contentRects_of_node hi))
          (rectSubset_expandRect cov hm))
    · intro ch hch bc hbc
      rcases hbr : boundRectOpt bc with _ | br
      · rw [inBoundSet_empty_of_boundRect_none hbr]
        exact Set.empty_subset _
      · refine (inBoundSet_subset_boundRect hbr).trans ?_
        simp only [inBoundSet]
        exact rectSet_mono
          (rectSubset_trans
            (coverList_covers hcov _ (mem_contentRects_of_child hch hbc hbr))
            (rectSubset_expandRect cov hm))
    · intro hpm ch hch bc hbc
      have hmp : 0 ≤ m - p := by linarith
      rcases hbr : boundRectOpt bc with _ | br
      · rw [inBoundSet_empty_of_boundRect_none hbr]
        exact Set.empty_subset _
      · refine (inBoundSet_subset_boundRect hbr).trans ?_
        simp only [shrinkBound, inBoundSet, shrinkRect_expandRect]
        exact rectSet_mono
          (rectSubset_trans
            (coverList_covers hcov _ (mem_contentRects_of_child hch hbc hbr))
            (rectSubset_expandRect cov hmp))
    · intro m' p' hk
      rw [ClusterKind.rectangular.injEq] at hk
      obtain ⟨rfl, rfl⟩ := hk
      exact ⟨cov, hcov, coverList_covers hcov,
        fun R hR => coverList_least hcov hR, rfl⟩
    · intro hk
      cases hk
  | convex =>
    simp only [computeBoundary, Cluster.bounds, Cluster.clusters, Cluster.nodes,
      Cluster.kind, ClusterKind.margin, ClusterKind.padding] at hb hm ⊢
    rcases hpts : hullContentPts rs ns (computeBoundaryList rs cs) with _ | ⟨q, qs⟩
    · rw [hpts] at hb
      cases hb
    · rw [hpts] at hb
      simp only [Option.some.injEq] at hb
      subst hb
      refine ⟨?_, ?_, ?_, ?_, ?_⟩
      · intro i hi
        refine (rectSet_subset_hull_corners (rs i)).trans (convexHull_mono ?_)
        intro q' hq'
        have : q' ∈ hullContentPts rs ns (computeBoundaryList rs cs) :=
          mem_hullContentPts_of_node hi hq'
        rw [hpts] at this
        exact this
      · intro ch hch bc hbc
        refine inBoundSet_subset_hull (fun q' hq' => ?_)
        have : q' ∈ hullContentPts rs ns (computeBoundaryList rs cs) :=
          mem_hullContentPts_of_child hch hbc hq'
        rw [hpts] at this
        exact this
      · intro hpm ch hch bc hbc
        simp only [shrinkBound]
        refine inBoundSet_subset_hull (fun q' hq' => ?_)
        have : q' ∈ hullContentPts rs ns (computeBoundaryList rs cs) :=
          mem_hullContentPts_of_child hch hbc hq'
        rw [hpts] at this
        exact this
      · intro m' p' hk
        cases hk
      · intro hk
        refine ⟨rfl, ?_⟩
        intro S hS hsub
        exact convexHull_min (fun q' hq' => hsub q' hq') hS

/-- Counterexample to C6 as stated: a parent rectangular cluster with margin 0
and padding 1 whose single child cluster spans the unit square.  After
`computeBoundary`, the child's bound (the unit square) does not lie within the
parent's bound shrunk by the parent's padding, which is empty. -/
theorem containment_counterexample :
    ¬ containmentAsStated (fun _ => ⟨0, 1, 0, 1⟩)
      (Cluster.mk (.rectangular 0 1) []
        [Cluster.mk (.rectangular 0 0) [0] [] none] none) := by
  intro h
  have hb : (computeBoundary (fun _ => (⟨0, 1, 0, 1⟩ : Rectangle))
      (Cluster.mk (.rectangular 0 1) []
        [Cluster.mk (.rectangular 0 0) [0] [] none] none)).bounds =
      some (.box ⟨0, 1, 0, 1⟩) := by
    simp [computeBoundary, computeBoundaryList, contentRects, coverList,
      boundRectOpt, expandRect, Cluster.bounds]
  have h2 := (h _ hb).2
  have hcl : (computeBoundary (fun _ => (⟨0, 1, 0, 1⟩ : Rectangle))
      (Cluster.mk (.rectangular 0 1) []
        [Cluster.mk (.rectangular 0 0) [0] [] none] none)).clusters =
      [Cluster.mk (.rectangular 0 0) [0] []
        (some (.box ⟨0, 1, 0, 1⟩))] := by
    simp [computeBoundary, computeBoundaryList, contentRects, coverList,
      boundRectOpt, expandRect, Cluster.clusters]
  rw [hcl] at h2
  have h3 := h2 _ (List.mem_cons_self _ _) (.box ⟨0, 1, 0, 1⟩) rfl
  have hmem : ((0 : ℚ), (0 : ℚ)) ∈ inBoundSet (.box ⟨0, 1, 0, 1⟩) := by
    refine ⟨⟨le_refl _, ?_⟩, ⟨le_refl _, ?_⟩⟩ <;> norm_num
  have h4 := h3 hmem
  simp only [Cluster.kind, ClusterKind.padding, shrinkBound, shrinkRect,
    inBoundSet, rectSet, Set.mem_prod, Set.mem_Icc] at h4
  norm_num at h4

/-- Witness for C6: the amended containment theorem applied to a rectangular
cluster with margin 1 and padding 0 over the unit square; the member square
lies in the expanded bound. -/
theorem computeBoundary_containment_witness :
    (0 : ℚ) ≤ (Cluster.mk (.rectangular 1 0) [0] [] none).kind.margin ∧
    rectSet ((fun _ => (⟨0, 1, 0, 1⟩ : Rectangle)) 0) ⊆
      inBoundSet (.box ⟨-1, 2, -1, 2⟩) := by
  refine ⟨by norm_num [Cluster.kind, ClusterKind.margin], ?_⟩
  have h := computeBoundary_containment (fun _ => (⟨0, 1, 0, 1⟩ : Rectangle))
    (Cluster.mk (.rectangular 1 0) [0] [] none)
    (by norm_num [Cluster.kind, ClusterKind.margin])
    (.box ⟨-1, 2, -1, 2⟩)
    (by simp [computeBoundary, computeBoundaryList, contentRects, coverList,
      expandRect, Cluster.bounds]
        norm_num)
  exact h.1 0 (by simp [Cluster.nodes])

/-- Full correctness of the most-violated scan, generalized over the
accumulator: the result either is the incoming best candidate or an eligible
list entry; it dominates every eligible list entry and the incoming best; it
strictly dominates the incoming best when selected at a different index, and it
strictly dominates every eligible list entry at a strictly smaller index. -/
theorem mvGo_correct (vars : Nat → Variable) (s : SolverState) :
    ∀ (l : List Constraint) (k : Nat) (best : Option (Nat × Constraint))
      (j : Nat) (c : Constraint),
      (∀ k0 c0, best = some (k0, c0) → k0 < k) →
      mvGo vars s l k best = some (j, c) →
      ((best = some (j, c) ∨
        ∃ m, j = k + m ∧ l[m]? = some c ∧
          s.blk c.left ≠ s.blk c.right ∧ 0 < violation vars s c) ∧
       (∀ (m : Nat) (cm : Constraint), l[m]? = some cm →
         s.blk cm.left ≠ s.blk cm.right →
         0 < violation vars s cm → violation vars s cm ≤ violation vars s c) ∧
       (∀ k0 c0, best = some (k0, c0) →
         violation vars s c0 ≤ violation vars s c) ∧
       (∀ k0 c0, best = some (k0, c0) → j ≠ k0 →
         violation vars s c0 < violation vars s c) ∧
       (∀ (m : Nat) (cm : Constraint), l[m]? = some cm →
         s.blk cm.left ≠ s.blk cm.right →
         0 < violation vars s cm → k + m < j →
         violation vars s cm < violation vars s c))
  | [], k, best, j, c => by
    intro hb hrun
    rw [mvGo] at hrun
    refine ⟨Or.inl hrun, ?_, ?_, ?_, ?_⟩
    · intro m cm hm
      simp at hm
    · intro k0 c0 h0
      rw [hrun] at h0
      simp only [Option.some.injEq, Prod.mk.injEq] at h0
      rw [h0.2]
    · intro k0 c0 h0 hne
      rw [hrun] at h0
      simp only [Option.some.injEq, Prod.mk.injEq] at h0
      exact absurd h0.1 hne
    · intro m cm hm
      simp at hm
  | c0 :: rest, k, best, j, c => by
    intro hb hrun
    rw [mvGo] at hrun
    unfold mvStep at hrun
    by_cases he : s.blk c0.left ≠ s.blk c0.right ∧ 0 < violation vars s c0
    · rw [if_pos he] at hrun
      rcases best with _ | ⟨k0, b0⟩
      · have ih := mvGo_correct vars s rest (k + 1) (some (k, c0)) j c
          (by
            intro k0' c0' h
            simp only [Option.some.injEq, Prod.mk.injEq] at h
            omega) hrun
        obtain ⟨hsrc, hdom, hdomb, hstrb, hstre⟩ := ih
        refine ⟨?_, ?_, ?_, ?_, ?_⟩
        · rcases hsrc with hsb | ⟨m, rfl, hm, hel⟩
          · simp only [Option.some.injEq, Prod.mk.injEq] at hsb
            refine Or.inr ⟨0, by omega, ?_, ?_⟩
            · rw [List.getElem?_cons_zero, hsb.2]
            · rw [← hsb.2]
              exact he
          · exact Or.inr ⟨m + 1, by omega, by rw [List.getElem?_cons_succ]; exact hm, hel⟩
        · intro m cm hm hne hpos
          cases m with
          | zero =>
            rw [List.getElem?_cons_zero, Option.some.injEq] at hm
            subst hm
            exact hdomb k c0 rfl
          | succ m =>
            rw [List.getElem?_cons_succ] at hm
            exact hdom m cm hm hne hpos
        · intro k0 c0' h0
          cases h0
        · intro k0 c0' h0
          cases h0
        · intro m cm hm hne hpos hlt
          cases m with
          | zero =>
            rw [List.getElem?_cons_zero, Option.some.injEq] at hm
            subst hm
            exact hstrb k c0 rfl (by omega)
          | succ m =>
            rw [List.getElem?_cons_succ] at hm
            exact hstre m cm hm hne hpos (by omega)
      · have hrun2 : mvGo vars s rest (k + 1)
            (if violation vars s b0 < violation vars s c0 then some (k, c0)
             else some (k0, b0)) = some (j, c) := hrun
        by_cases hv : violation vars s b0 < violation vars s c0
        · rw [if_pos hv] at hrun2
          have ih := mvGo_correct vars s rest (k + 1) (some (k, c0)) j c
            (by
              intro k0' c0' h
              simp only [Option.some.injEq, Prod.mk.injEq] at h
              omega) hrun2
          obtain ⟨hsrc, hdom, hdomb, hstrb, hstre⟩ := ih
          refine ⟨?_, ?_, ?_, ?_, ?_⟩
          · rcases hsrc with hsb | ⟨m, rfl, hm, hel⟩
            · simp only [Option.some.injEq, Prod.mk.injEq] at hsb
              refine Or.inr ⟨0, by omega, ?_, ?_⟩
              · rw [List.getElem?_cons_zero, hsb.2]
              · rw [← hsb.2]
                exact he
            · exact Or.inr
                ⟨m + 1, by omega, by rw [List.getElem?_cons_succ]; exact hm, hel⟩
          · intro m cm hm hne hpos
            cases m with
            | zero =>
              rw [List.getElem?_cons_zero, Option.some.injEq] at hm
              subst hm
              exact hdomb k c0 rfl
            | succ m =>
              rw [List.getElem?_cons_succ] at hm
              exact hdom m cm hm hne hpos
          · intro k0' c0' h0
            simp only [Option.some.injEq, Prod.mk.injEq] at h0
            rw [← h0.2]
            exact le_of_lt (lt_of_lt_of_le hv (hdomb k c0 rfl))
          · intro k0' c0' h0 hjne
            simp only [Option.some.injEq, Prod.mk.injEq] at h0
            rw [← h0.2]
            exact lt_of_lt_of_le hv (hdomb k c0 rfl)
          · intro m cm hm hne hpos hlt
            cases m with
            | zero =>
              rw [List.getElem?_cons_zero, Option.some.injEq] at hm
              subst hm
              exact hstrb k c0 rfl (by omega)
            | succ m =>
              rw [List.getElem?_cons_succ] at hm
              exact hstre m cm hm hne hpos (by omega)
        · rw [if_neg hv] at hrun2
          have hk0 : k0 < k := hb k0 b0 rfl
          have ih := mvGo_correct vars s rest (k + 1) (some (k0, b0)) j c
            (by
              intro k0' c0' h
              simp only [Option.some.injEq, Prod.mk.injEq] at h
              omega) hrun2
          obtain ⟨hsrc, hdom, hdomb, hstrb, hstre⟩ := ih
          have hle : violation vars s c0 ≤ violation vars s b0 := not_lt.mp hv
          refine ⟨?_, ?_, ?_, ?_, ?_⟩
          · rcases hsrc with hsb | ⟨m, rfl, hm, hel⟩
            · exact Or.inl hsb
            · exact Or.inr
                ⟨m + 1, by omega, by rw [List.getElem?_cons_succ]; exact hm, hel⟩
          · intro m cm hm hne hpos
            cases m with
            | zero =>
              rw [List.getElem?_cons_zero, Option.some.injEq] at hm
              subst hm
              exact le_trans hle (hdomb k0 b0 rfl)
            | succ m =>
              rw [List.getElem?_cons_succ] at hm
              exact hdom m cm hm hne hpos
          · intro k0' c0' h0
            simp only [Option.some.injEq, Prod.mk.injEq] at h0
            rw [← h0.2]
            exact hdomb k0 b0 rfl
          · intro k0' c0' h0 hjne
            simp only [Option.some.injEq, Prod.mk.injEq] at h0
            rw [← h0.2]
            exact hstrb k0 b0 rfl (by omega)
          · intro m cm hm hne hpos hlt
            cases m with
            | zero =>
              rw [List.getElem?_cons_zero, Option.some.injEq] at hm
              subst hm
              exact lt_of_le_of_lt hle (hstrb k0 b0 rfl (by omega))
            | succ m =>
              rw [List.getElem?_cons_succ] at hm
              exact hstre m cm hm hne hpos (by omega)
    · rw [if_neg he] at hrun
      have ih := mvGo_correct vars s rest (k + 1) best j c
        (by
          intro k0' c0' h
          exact Nat.lt_succ_of_lt (hb k0' c0' h)) hrun
      obtain ⟨hsrc, hdom, hdomb, hstrb, hstre⟩ := ih
      refine ⟨?_, ?_, ?_, ?_, ?_⟩
      · rcases hsrc with hsb | ⟨m, rfl, hm, hel⟩
        · exact Or.inl hsb
        · exact Or.inr
            ⟨m + 1, by omega, by rw [List.getElem?_cons_succ]; exact hm, hel⟩
      · intro m cm hm hne hpos
        cases m with
        | zero =>
          rw [List.getElem?_cons_zero, Option.some.injEq] at hm
          subst hm
          exact absurd ⟨hne, hpos⟩ he
        | succ m =>
          rw [List.getElem?_cons_succ] at hm
          exact hdom m cm hm hne hpos
      · exact hdomb
      · exact hstrb
      · intro m cm hm hne hpos hlt
        cases m with
        | zero =>
          rw [List.getElem?_cons_zero, Option.some.injEq] at hm
          subst hm
          exact absurd ⟨hne, hpos⟩ he
        | succ m =>
          rw [List.getElem?_cons_succ] at hm
          exact hstre m cm hm hne hpos (by omega)

/-- C3: two runs of the modelled solve on identical variable and constraint
input produce identical output positions, and the tie-breaking of the
most-violated scan is deterministic by stable index order: a selected
constraint is the entry of least index among the eligible constraints
achieving the maximal violation. -/
theorem solve_deterministic_tiebreak :
    (∀ (vars₁ vars₂ : Nat → Variable) (n₁ n₂ : Nat)
      (cs₁ cs₂ : List Constraint),
      vars₁ = vars₂ → n₁ = n₂ → cs₁ = cs₂ →
      (fun i => varPosn vars₁ (satisfyVPSC vars₁ n₁ cs₁) i) =
        (fun i => varPosn vars₂ (satisfyVPSC vars₂ n₂ cs₂) i)) ∧
    (∀ (vars : Nat → Variable) (s : SolverState) (cs : List Constraint)
      (k : Nat) (c : Constraint),
      mostViolated vars s cs = some (k, c) →
      cs[k]? = some c ∧
      s.blk c.left ≠ s.blk c.right ∧ 0 < violation vars s c ∧
      (∀ (j : Nat) (cj : Constraint), cs[j]? = some cj →
        s.blk cj.left ≠ s.blk cj.right →
        0 < violation vars s cj → violation vars s cj ≤ violation vars s c) ∧
      (∀ (j : Nat) (cj : Constraint), j < k → cs[j]? = some cj →
        s.blk cj.left ≠ s.blk cj.right →
        0 < violation vars s cj →
        violation vars s cj < violation vars s c)) := by
  constructor
  · intro vars₁ vars₂ n₁ n₂ cs₁ cs₂ h1 h2 h3
    subst h1
    subst h2
    subst h3
    rfl
  · intro vars s cs k c hmv
    have hinfo := mvGo_correct vars s cs 0 none k c
      (fun k0 c0 h => Option.noConfusion h) hmv
    obtain ⟨hsrc, hdom, -, -, hstr⟩ := hinfo
    rcases hsrc with h | ⟨m, hmeq, hm, hne, hpos⟩
    · exact Option.noConfusion h
    · have hkm : k = m := by omega
      subst hkm
      refine ⟨hm, hne, hpos, hdom, ?_⟩
      intro j cj hjlt hj hjne hjpos
      exact hstr j cj hj hjne hjpos (by omega)

/-- Witness for C3: the determinism theorem applied to a concrete one-variable
problem, and the tie-break theorem applied to a concrete two-variable problem
where the scan selects the single violated constraint at index 0. -/
theorem solve_deterministic_tiebreak_witness :
    ((fun i => varPosn (fun _ => ⟨0, 1⟩) (satisfyVPSC (fun _ => ⟨0, 1⟩) 1 []) i) =
      (fun i => varPosn (fun _ => ⟨0, 1⟩) (satisfyVPSC (fun _ => ⟨0, 1⟩) 1 []) i)) ∧
    ([(⟨0, 1, 1, false⟩ : Constraint)][0]? = some ⟨0, 1, 1, false⟩) := by
  constructor
  · exact solve_deterministic_tiebreak.1 _ _ 1 1 [] [] rfl rfl rfl
  · have hv : violation (fun _ => ⟨0, 1⟩) (initState 2) ⟨0, 1, 1, false⟩ = 1 := by
      simp [violation, varPosn, blockPosn, blockVars, initState,
        Finset.filter_eq, Finset.sum_filter]
    have hcond : (initState 2).blk (Constraint.mk 0 1 1 false).left ≠
        (initState 2).blk (Constraint.mk 0 1 1 false).right ∧
        0 < violation (fun _ => ⟨0, 1⟩) (initState 2) ⟨0, 1, 1, false⟩ :=
      ⟨by simp [initState], by rw [hv]; norm_num⟩
    have hmv : mostViolated (fun _ => ⟨0, 1⟩) (initState 2)
        [⟨0, 1, 1, false⟩] = some (0, ⟨0, 1, 1, false⟩) := by
      simp only [mostViolated, mvGo, mvStep, if_pos hcond]
    exact (solve_deterministic_tiebreak.2 (fun _ => ⟨0, 1⟩) (initState 2)
      [⟨0, 1, 1, false⟩] 0 ⟨0, 1, 1, false⟩ hmv).1

/-- C9: exhausting the iteration cap ends the run in the terminal status
`STOPPED` with the current coordinate array; `STOPPED` is distinct from the
failure status; and when each successful solve step never increases the true
stress, the positions a `STOPPED` run returns are no worse than the initial
ones — the best found so far remain usable. -/
theorem driver_stopped_spec :
    (∀ (step : List ℚ → Except Unit (List ℚ)) (stress : List ℚ → ℚ)
      (tol : ℚ) (x : List ℚ) (k : Nat),
      driverLoop step stress tol 0 x k = ⟨.STOPPED, x, k⟩) ∧
    DriverStatus.STOPPED ≠ DriverStatus.FAILED ∧
    (∀ (step : List ℚ → Except Unit (List ℚ)) (stress : List ℚ → ℚ)
      (tol : ℚ) (fuel : Nat) (x : List ℚ) (k : Nat),
      (∀ y y2, step y = .ok y2 → stress y2 ≤ stress y) →
      (driverLoop step stress tol fuel x k).status = .STOPPED →
      stress (driverLoop step stress tol fuel x k).positions ≤ stress x) := by
  refine ⟨fun step stress tol x k => rfl, by simp, ?_⟩
  intro step stress tol fuel
  induction fuel with
  | zero => intro x k hmono hstop; exact le_refl _
  | succ fuel ih =>
    intro x k hmono hstop
    rcases h : step x with e | x2
    · rw [driverLoop] at hstop ⊢
      simp only [h] at hstop
      cases hstop
    · by_cases hc : stress x - stress x2 < tol
      · rw [driverLoop] at hstop ⊢
        simp only [h, if_pos hc] at hstop
        cases hstop
      · rw [driverLoop] at hstop ⊢
        simp only [h, if_neg hc] at hstop ⊢
        exact le_trans (ih x2 (k + 1) hmono hstop) (hmono x x2 h)

/-- Witness for C9: a run with zero remaining iterations stops immediately and
keeps its coordinates. -/
theorem driver_stopped_spec_witness :
    (driverLoop (fun _ => .ok []) (fun _ => 0) 1 0 [] 0).status =
      DriverStatus.STOPPED ∧
    (fun _ : List ℚ => (0 : ℚ))
        (driverLoop (fun _ => .ok []) (fun _ => 0) 1 0 [] 0).positions ≤
      (fun _ : List ℚ => (0 : ℚ)) [] := by
  refine ⟨rfl, ?_⟩
  exact driver_stopped_spec.2.2 (fun _ => .ok []) (fun _ => 0) 1 0 [] 0
    (fun y y2 h => le_refl _) rfl

/-- C2: across consecutive outer iterations of the modelled majorization
driver, the true stress at the written-back positions is non-increasing: the
solver returns the feasible minimizer of a majorizing surrogate that touches
the true stress at the current point, so each new iterate's stress is bounded
by the previous one's. -/
theorem stress_monotone (stress : List ℚ → ℚ) (g : List ℚ → List ℚ → ℚ)
    (F : Set (List ℚ)) (argmin : (List ℚ → ℚ) → List ℚ) (x0 : List ℚ)
    (hmaj : ∀ x y, x ∈ F → y ∈ F → stress y ≤ g y x)
    (htouch : ∀ x, x ∈ F → g x x = stress x)
    (hsolver : ∀ x, x ∈ F → majorizationStep argmin g x ∈ F ∧
      ∀ y ∈ F, g (majorizationStep argmin g x) x ≤ g y x)
    (hx0 : x0 ∈ F) :
    ∀ k, stress (majorizationIter argmin g x0 (k + 1)) ≤
      stress (majorizationIter argmin g x0 k) := by
  have hF : ∀ k, majorizationIter argmin g x0 k ∈ F := by
    intro k
    induction k with
    | zero => exact hx0
    | succ k ihk => exact (hsolver _ ihk).1
  intro k
  have hx : majorizationIter argmin g x0 k ∈ F := hF k
  have hx2 : majorizationIter argmin g x0 (k + 1) ∈ F := hF (k + 1)
  have h1 : stress (majorizationIter argmin g x0 (k + 1)) ≤
      g (majorizationIter argmin g x0 (k + 1)) (majorizationIter argmin g x0 k) :=
    hmaj _ _ hx hx2
  have h2 : g (majorizationIter argmin g x0 (k + 1))
      (majorizationIter argmin g x0 k) ≤
      g (majorizationIter argmin g x0 k) (majorizationIter argmin g x0 k) :=
    (hsolver _ hx).2 _ hx
  have h3 : g (majorizationIter argmin g x0 k) (majorizationIter argmin g x0 k) =
      stress (majorizationIter argmin g x0 k) := htouch _ hx
  linarith

/-- Witness for C2: stress monotonicity instantiated with the squared head
coordinate as stress, the stress itself as its surrogate, the unconstrained
feasible set, and a solve returning the global minimizer 0. -/
theorem stress_monotone_witness :
    (fun l : List ℚ => (l.headD 0) ^ 2)
        (majorizationIter (fun _ => ([0] : List ℚ))
          (fun y _ => ((y.headD 0 : ℚ)) ^ 2) [5] 1) ≤
      (fun l : List ℚ => (l.headD 0) ^ 2)
        (majorizationIter (fun _ => ([0] : List ℚ))
          (fun y _ => ((y.headD 0 : ℚ)) ^ 2) [5] 0) :=
  stress_monotone (fun l => (l.headD 0) ^ 2) (fun y _ => (y.headD 0) ^ 2)
    Set.univ (fun _ => [0]) [5]
    (fun x y _ _ => le_refl _) (fun x _ => rfl)
    (fun x _ => ⟨Set.mem_univ _, fun y _ => by
      simpa [majorizationStep] using sq_nonneg ((y.headD 0 : ℚ))⟩)
    (Set.mem_univ _) 0

/-- Telescoping along a linked chain of satisfied separation constraints: the
start position plus the total gap bounds the end position. -/
theorem chain_sum_le (x : Nat → ℚ) (cs : List Constraint)
    (hx : satisfiesAll x cs) :
    ∀ (cyc : List Constraint) (hne : cyc ≠ []), (∀ c ∈ cyc, c ∈ cs) →
      List.Chain' (fun c c2 => c.right = c2.left) cyc →
      x ((cyc.head hne).left) + (cyc.map Constraint.gap).sum ≤
        x ((cyc.getLast hne).right)
  | [], hne => absurd rfl hne
  | [c], _ => by
    intro hmem _
    have h := hx c (hmem c (List.mem_singleton.mpr rfl))
    simp only [List.head_cons, List.getLast_singleton, List.map_cons,
      List.map_nil, List.sum_cons, List.sum_nil]
    linarith
  | c :: c2 :: rest, _ => by
    intro hmem hchain
    rw [List.chain'_cons] at hchain
    have ih := chain_sum_le x cs hx (c2 :: rest) (by simp)
      (fun d hd => hmem d (List.mem_cons_of_mem _ hd)) hchain.2
    have h1 := hx c (hmem c (List.mem_cons_self _ _))
    have hlink : c.right = c2.left := hchain.1
    have hlast : (c :: c2 :: rest).getLast (by simp) =
        (c2 :: rest).getLast (by simp) := List.getLast_cons (by simp)
    simp only [List.head_cons] at ih ⊢
    rw [hlast]
    simp only [List.map_cons, List.sum_cons] at ih ⊢
    rw [hlink] at h1
    linarith

/-- Constraint set containing a cycle of strict inequalities has no feasible
assignment. -/
theorem strict_cycle_infeasible {cs cyc : List Constraint}
    (hcyc : IsStrictCycle cs cyc) : ¬∃ x : Nat → ℚ, satisfiesAll x cs := by
  rintro ⟨x, hx⟩
  obtain ⟨hne, hmem, hgap, hchain, hlink⟩ := hcyc
  have h := chain_sum_le x cs hx cyc hne hmem hchain
  have hl : (cyc.getLast hne).right = (cyc.head hne).left := by
    rw [List.getLast?_eq_getLast cyc hne, List.head?_eq_head hne] at hlink
    simp only [Option.map_some', Option.some.injEq] at hlink
    exact hlink
  rw [hl] at h
  have hpos : 0 < (cyc.map Constraint.gap).sum := by
    apply List.sum_pos
    · intro a ha
      obtain ⟨c, hc, rfl⟩ := List.mem_map.mp ha
      exact hgap c hc
    · simpa using hne
  linarith

/-- Relaxation fold dominates its seed and each applicable candidate. -/
theorem relax_fold_ge (pot : List ℚ) (i : Nat) :
    ∀ (l : List Constraint) (acc : ℚ),
      acc ≤ l.foldl
        (fun acc c =>
          if c.right = i then max acc (pot.getD c.left 0 + c.gap) else acc)
        acc ∧
      ∀ c ∈ l, c.right = i →
        pot.getD c.left 0 + c.gap ≤ l.foldl
          (fun acc c =>
            if c.right = i then max acc (pot.getD c.left 0 + c.gap) else acc)
          acc
  | [], acc => ⟨le_refl _, by simp⟩
  | c :: l, acc => by
    have ih := relax_fold_ge pot i l
      (if c.right = i then max acc (pot.getD c.left 0 + c.gap) else acc)
    rw [List.foldl_cons]
    constructor
    · refine le_trans ?_ ih.1
      by_cases hr : c.right = i
      · rw [if_pos hr]
        exact le_max_left _ _
      · rw [if_neg hr]
    · intro d hd hdr
      rcases List.mem_cons.mp hd with rfl | hd2
      · refine le_trans ?_ ih.1
        rw [if_pos hdr]
        exact le_max_right _ _
      · exact ih.2 d hd2 hdr

/-- Reading an entry of a map over a range. -/
theorem getD_map_range (m i : Nat) (g : Nat → ℚ) (hi : i < m) :
    ((List.range m).map g).getD i 0 = g i := by
  simp [List.getD, List.getElem?_map, List.getElem?_range, hi]

/-- Potentials fixed under a relaxation round satisfy every constraint. -/
theorem fixpoint_feasible {n : Nat} {cs : List Constraint} {pot : List ℚ}
    (hlen : pot.length = n) (hfix : relaxRound cs pot = pot)
    (hwf : ∀ c ∈ cs, c.left < n ∧ c.right < n) :
    satisfiesAll (fun j => pot.getD j 0) cs := by
  intro c hc
  have hr : c.right < pot.length := by
    rw [hlen]
    exact (hwf c hc).2
  have heq : (relaxRound cs pot).getD c.right 0 = pot.getD c.right 0 := by
    rw [hfix]
  rw [relaxRound, getD_map_range pot.length c.right _ hr] at heq
  have hge := (relax_fold_ge pot c.right cs (pot.getD c.right 0)).2 c hc rfl
  rw [heq] at hge
  exact hge

/-- Relaxation rounds preserve the length of the potential vector. -/
theorem iterRounds_length (cs : List Constraint) :
    ∀ (k : Nat) (pot : List ℚ), (iterRounds cs k pot).length = pot.length
  | 0, pot => rfl
  | k + 1, pot => by
    rw [iterRounds, iterRounds_length cs k]
    simp [relaxRound]

/-- Completeness of the infeasibility detector: a cycle of strict inequalities
is always detected. -/
theorem detect_of_cycle {n : Nat} {cs cyc : List Constraint}
    (hwf : ∀ c ∈ cs, c.left < n ∧ c.right < n)
    (hcyc : IsStrictCycle cs cyc) : detectInfeasible n cs = true := by
  cases hdet : detectInfeasible n cs with
  | true => rfl
  | false =>
    exfalso
    have hfix : relaxRound cs (iterRounds cs n (List.replicate n 0)) =
        iterRounds cs n (List.replicate n 0) := by
      have h2 := hdet
      simp only [detectInfeasible, decide_eq_false_iff_not, not_not] at h2
      exact h2
    have hlen : (iterRounds cs n (List.replicate n 0)).length = n := by
      rw [iterRounds_length]
      exact List.length_replicate n 0
    have hfeas := fixpoint_feasible hlen hfix hwf
    exact strict_cycle_infeasible hcyc ⟨_, hfeas⟩

/-- C4: a constraint set containing a cycle of strict inequalities has no
feasible assignment; the modelled solve reports it with the distinct failure
status and never returns an assignment as success; and the driver, hitting the
failing solve, ends the run `FAILED` immediately after that single solver
invocation — the failing solve is not retried. -/
theorem infeasible_cycle_reported (vars : Nat → Variable) (n : Nat)
    (cs : List Constraint) (cyc : List Constraint)
    (hwf : ∀ c ∈ cs, c.left < n ∧ c.right < n)
    (hcyc : IsStrictCycle cs cyc) :
    (¬∃ x : Nat → ℚ, satisfiesAll x cs) ∧
    solveVPSCChecked vars n cs = Except.error DriverStatus.FAILED ∧
    (∀ s : SolverState, solveVPSCChecked vars n cs ≠ Except.ok s) ∧
    (∀ (stress : List ℚ → ℚ) (tol : ℚ) (fuel : Nat) (x : List ℚ) (k : Nat),
      driverLoop (vpscStep vars n cs) stress tol (fuel + 1) x k =
        ⟨DriverStatus.FAILED, x, k + 1⟩) := by
  have hdet := detect_of_cycle hwf hcyc
  have hsolve : solveVPSCChecked vars n cs = Except.error DriverStatus.FAILED := by
    simp only [solveVPSCChecked, hdet, if_true]
  refine ⟨strict_cycle_infeasible hcyc, hsolve, ?_, ?_⟩
  · intro s h
    rw [hsolve] at h
    exact Except.noConfusion h
  · intro stress tol fuel x k
    have hstep : vpscStep vars n cs x = Except.error () := by
      simp only [vpscStep, hsolve]
    rw [driverLoop]
    simp only [hstep]

/-- Witness for C4: the two-constraint cycle `0 < 1 < 0` with unit gaps over
two variables is reported as the failure status. -/
theorem infeasible_cycle_reported_witness :
    solveVPSCChecked (fun _ => ⟨0, 1⟩) 2
      [⟨0, 1, 1, false⟩, ⟨1, 0, 1, false⟩] =
      Except.error DriverStatus.FAILED := by
  refine (infeasible_cycle_reported (fun _ => ⟨0, 1⟩) 2
    [⟨0, 1, 1, false⟩, ⟨1, 0, 1, false⟩]
    [⟨0, 1, 1, false⟩, ⟨1, 0, 1, false⟩] ?_ ?_).2.1
  · intro c hc
    rcases List.mem_cons.mp hc with rfl | hc2
    · exact ⟨by norm_num, by norm_num⟩
    · rw [List.mem_singleton] at hc2
      subst hc2
      exact ⟨by norm_num, by norm_num⟩
  · refine ⟨by simp, fun c hc => hc, ?_, ?_, ?_⟩
    · intro c hc
      rcases List.mem_cons.mp hc with rfl | hc2
      · norm_num
      · rw [List.mem_singleton] at hc2
        subst hc2
        norm_num
    · rw [List.chain'_cons]
      exact ⟨rfl, List.chain'_singleton _⟩
    · simp

end Adaptagrams
